import Mathlib

/-!
Verification of the WORKING_ASTRAL_CORE repair scripts.

The repository consists of three Python scripts (comprehensive_fix.py,
fix_syntax_errors.py, fix_remaining_syntax.py).  Each reads files, applies an
ordered list of regular-expression substitutions (re.sub) to the content, and
conditionally writes the result back.  We embed the regex dialect fragment the
scripts actually use (literals, single-character classes, greedy * and +,
alternation, capturing groups, and the MULTILINE end-of-line anchor $) as a
small AST with a backtracking matcher, plus a faithful model of Python's
re.sub scan loop (leftmost match, non-overlapping, replacement not rescanned).
File handling is modelled by an association-list file system together with an
explicit log of write events and printed report lines.
-/

/-- Python `\s` (ASCII range): space, tab, newline, carriage return,
vertical tab, form feed. -/
def isPySpace (c : Char) : Bool :=
  c = ' ' || c = '\t' || c = '\n' || c = '\r' || c = '\x0b' || c = '\x0c'

/-- First character of `[a-zA-Z_]`. -/
def isIdentStart (c : Char) : Bool :=
  ( 'a' ≤ c && c ≤ 'z') || ( 'A' ≤ c && c ≤ 'Z') || c = '_'

/-- Character of `[a-zA-Z0-9_]` (also Python `\w` restricted to ASCII). -/
def isIdentChar (c : Char) : Bool :=
  isIdentStart c || ( '0' ≤ c && c ≤ '9')

/-- Regex AST covering exactly the constructs used by the scripts' patterns.
Quantifiers only ever apply to single-character classes in those patterns, so
`star` carries a character predicate; `+` is encoded as `cls` followed by
`star`.  `eol` is the MULTILINE `$`. -/
inductive RE where
  | eps : RE
  | lit : List Char → RE
  | cls : (Char → Bool) → RE
  | star : (Char → Bool) → RE
  | eol : RE
  | seq : RE → RE → RE
  | alt : RE → RE → RE
  | grp : RE → RE

/-- Length of the maximal prefix of `s` whose characters satisfy `p`. -/
def runLen (p : Char → Bool) : List Char → Nat
  | [] => 0
  | c :: cs => if p c then runLen p cs + 1 else 0

/-- Suffix candidates for a greedy star: `[s.drop n, s.drop (n-1), ..., s.drop 0]`,
longest-consumed first. -/
def dropsDesc (s : List Char) : Nat → List (List Char)
  | 0 => [s]
  | n + 1 => s.drop (n + 1) :: dropsDesc s n

/-- Matcher result: captured groups (in order of appearance) and the suffix
remaining after the match. -/
abbrev MRes := Option (List (List Char) × List Char)

/-- Backtracking CPS matcher.  `mtch r s caps k` tries to match `r` at the
start of `s`; on each candidate success it calls `k` with the remaining suffix
and the updated capture list, trying candidates in the order Python's engine
does (greedy, leftmost alternative first) until `k` accepts. -/
def mtch : RE → List Char → List (List Char) →
    (List Char → List (List Char) → MRes) → MRes
  | RE.eps, s, caps, k => k s caps
  | RE.lit cs, s, caps, k =>
      if cs.isPrefixOf s then k (s.drop cs.length) caps else none
  | RE.cls p, s, caps, k =>
      match s with
      | [] => none
      | c :: s2 => if p c then k s2 caps else none
  | RE.star p, s, caps, k =>
      (dropsDesc s (runLen p s)).findSome? fun s2 => k s2 caps
  | RE.eol, s, caps, k =>
      match s with
      | [] => k s caps
      | c :: _ => if c = '\n' then k s caps else none
  | RE.seq a b, s, caps, k =>
      mtch a s caps fun s2 caps2 => mtch b s2 caps2 k
  | RE.alt a b, s, caps, k =>
      match mtch a s caps k with
      | some v => some v
      | none => mtch b s caps k
  | RE.grp r, s, caps, k =>
      mtch r s caps fun s2 caps2 =>
        k s2 (caps2 ++ [s.take (s.length - s2.length)])

/-- Leftmost-at-this-position match: captures and remaining suffix. -/
def firstMatch (r : RE) (s : List Char) : MRes :=
  mtch r s [] fun rest caps => some (caps, rest)

/-- Replacement template piece: literal text or a backreference `\n`. -/
inductive TPiece where
  | txt : List Char → TPiece
  | ref : Nat → TPiece

/-- Instantiate a replacement template with the captured groups. -/
def applyTemplate (t : List TPiece) (caps : List (List Char)) : List Char :=
  t.foldr (fun p acc =>
    (match p with
     | TPiece.txt cs => cs
     | TPiece.ref n => caps.getD (n - 1) []) ++ acc) []

/-- One re.sub scan with explicit fuel (the scan consumes at least one input
character per step, so fuel `s.length + 1` always suffices).  At each position
the pattern is tried; on failure one character is copied; on success the
instantiated template is emitted and scanning resumes after the match
(replacements are not rescanned), matching Python's re.sub. -/
def subFuel (r : RE) (t : List TPiece) : Nat → List Char → List Char
  | 0, s => s
  | Nat.succ f, s =>
    match firstMatch r s with
    | none =>
      match s with
      | [] => []
      | c :: s2 => c :: subFuel r t f s2
    | some (caps, rest) =>
      if s.length - rest.length = 0 then
        match s with
        | [] => applyTemplate t caps
        | c :: s2 => applyTemplate t caps ++ c :: subFuel r t f s2
      else applyTemplate t caps ++ subFuel r t f rest

/-- A rule is one `re.sub(pattern, replacement, ...)` call: compiled pattern
plus replacement template. -/
abbrev Rule := RE × List TPiece

/-- Apply one rule to a string (the whole `re.sub` call). -/
def reSub (ru : Rule) (s : String) : String :=
  String.mk (subFuel ru.1 ru.2 (s.data.length + 1) s.data)

/-- Sequentially fold an ordered rule list over a buffer, each rule seeing the
previous rule's output. -/
def runRules (rules : List Rule) (s : String) : String :=
  rules.foldl (fun b ru => reSub ru b) s

/-- Build a sequence regex from a list. -/
def cat (rs : List RE) : RE := rs.foldr RE.seq RE.eps

/-- Literal regex from a string. -/
def lstr (s : String) : RE := RE.lit s.data

/-- A regex that never matches (used only as base of empty alternations). -/
def reFail : RE := RE.cls fun _ => false

/-- Alternation of string literals, tried left to right. -/
def altStrs : List String → RE
  | [] => reFail
  | [x] => lstr x
  | x :: xs => RE.alt (lstr x) (altStrs xs)

/-- Regex `\s*`. -/
def wsStar : RE := RE.star isPySpace

/-- Regex `\s+`. -/
def wsPlus : RE := RE.seq (RE.cls isPySpace) (RE.star isPySpace)

/-- Regex `[a-zA-Z_][a-zA-Z0-9_]*`. -/
def identRE : RE := RE.seq (RE.cls isIdentStart) (RE.star isIdentChar)

/-- Character class `[^,\n{}]` of comprehensive_fix rule 1. -/
def notValStop (c : Char) : Bool :=
  !(c = ',' || c = '\n' || c = '\x7b' || c = '\x7d')

/-- Character class `[^,\n]`. -/
def notCommaNl (c : Char) : Bool := !(c = ',' || c = '\n')

/-- Character class `[^)]`. -/
def notRParen (c : Char) : Bool := !(c = ')')

/-- Character class `[^}]`. -/
def notRBrace (c : Char) : Bool := !(c = '\x7d')

/-- Character class `[^{]`. -/
def notLBrace (c : Char) : Bool := !(c = '\x7b')

/-- comprehensive_fix rule 1:
`([a-zA-Z_][a-zA-Z0-9_]*:\s*[^,\n{}]+)\n(\s+)([a-zA-Z_][a-zA-Z0-9_]*:)`
replaced by `\1,\n\2\3` (missing comma between object properties). -/
def cfRule1 : Rule :=
  (cat [RE.grp (cat [RE.cls isIdentStart, RE.star isIdentChar, lstr ":",
          wsStar, RE.cls notValStop, RE.star notValStop]),
        lstr "\n", RE.grp wsPlus,
        RE.grp (cat [RE.cls isIdentStart, RE.star isIdentChar, lstr ":"])],
   [TPiece.ref 1, TPiece.txt ",\n".data, TPiece.ref 2, TPiece.ref 3])

/-- comprehensive_fix rule 2: `(\}|\))\n(\s+)([a-zA-Z_][a-zA-Z0-9_]*:)`
replaced by `\1,\n\2\3` (missing comma after closing brace/paren). -/
def cfRule2 : Rule :=
  (cat [RE.grp (RE.alt (lstr "\x7d") (lstr ")")),
        lstr "\n", RE.grp wsPlus,
        RE.grp (cat [RE.cls isIdentStart, RE.star isIdentChar, lstr ":"])],
   [TPiece.ref 1, TPiece.txt ",\n".data, TPiece.ref 2, TPiece.ref 3])

/-- comprehensive_fix rule 3: `,\s*\)` replaced by `)` (trailing comma inside
parentheses). -/
def cfRule3 : Rule :=
  (cat [lstr ",", wsStar, lstr ")"], [TPiece.txt ")".data])

/-- comprehensive_fix rule 4 (MULTILINE): `(\w+\([^)]*),\s*$` replaced by
`\1)` (missing closing parenthesis). -/
def cfRule4 : Rule :=
  (cat [RE.grp (cat [RE.cls isIdentChar, RE.star isIdentChar, lstr "(",
          RE.star notRParen]),
        lstr ",", wsStar, RE.eol],
   [TPiece.ref 1, TPiece.txt ")".data])

/-- comprehensive_fix rule 5: `\{,\s*` replaced by `{ ` (object literal
beginning with a stray comma). -/
def cfRule5 : Rule :=
  (cat [lstr "\x7b,", wsStar], [TPiece.txt "\x7b ".data])

/-- comprehensive_fix rule 6: `,\s*updatedAt:\s*new Date\(\)\}` replaced by
`, updatedAt: new Date() }`. -/
def cfRule6 : Rule :=
  (cat [lstr ",", wsStar, lstr "updatedAt:", wsStar, lstr "new Date()\x7d"],
   [TPiece.txt ", updatedAt: new Date() \x7d".data])

/-- comprehensive_fix rule 7: `\)\s*\)\s*\)` replaced by `))` (extra closing
parenthesis). -/
def cfRule7 : Rule :=
  (cat [lstr ")", wsStar, lstr ")", wsStar, lstr ")"],
   [TPiece.txt "))".data])

/-- The ordered RuleSet of comprehensive_fix.fix_file_syntax (lines 18-44). -/
def cfRules : List Rule :=
  [cfRule1, cfRule2, cfRule3, cfRule4, cfRule5, cfRule6, cfRule7]

/-- The pure rewrite part of comprehensive_fix.fix_file_syntax: the fold of
its RuleSet over a buffer. -/
def comprehensiveFix (s : String) : String := runRules cfRules s

/-- fix_syntax_errors rule 1: `([a-zA-Z_][a-zA-Z0-9_]*\([^)]*),\s*\n`
replaced by `\1)\n` (call with dangling comma at end of line). -/
def fseRule1 : Rule :=
  (cat [RE.grp (cat [RE.cls isIdentStart, RE.star isIdentChar, lstr "(",
          RE.star notRParen]),
        lstr ",", wsStar, lstr "\n"],
   [TPiece.ref 1, TPiece.txt ")\n".data])

/-- fix_syntax_errors rule 2 (MULTILINE):
`([\s\t]*[a-zA-Z_][a-zA-Z0-9_]*:\s*[^,\n]+),\s*$` replaced by `\1`
(trailing comma at end of a property line). -/
def fseRule2 : Rule :=
  (cat [RE.grp (cat [wsStar, RE.cls isIdentStart, RE.star isIdentChar,
          lstr ":", wsStar, RE.cls notCommaNl, RE.star notCommaNl]),
        lstr ",", wsStar, RE.eol],
   [TPiece.ref 1])

/-- fix_syntax_errors rule 3: `new Date\(,` replaced by `new Date(),`. -/
def fseRule3 : Rule :=
  (lstr "new Date(,", [TPiece.txt "new Date(),".data])

/-- fix_syntax_errors rule 4: `\{,\s*updatedAt` replaced by `{ updatedAt`. -/
def fseRule4 : Rule :=
  (cat [lstr "\x7b,", wsStar, lstr "updatedAt"],
   [TPiece.txt "\x7b updatedAt".data])

/-- fix_syntax_errors rule 5: `([^{]),\s*updatedAt:\s*new Date\(\)\}`
replaced by `\1, updatedAt: new Date() }`. -/
def fseRule5 : Rule :=
  (cat [RE.grp (RE.cls notLBrace), lstr ",", wsStar, lstr "updatedAt:",
        wsStar, lstr "new Date()\x7d"],
   [TPiece.ref 1, TPiece.txt ", updatedAt: new Date() \x7d".data])

/-- fix_syntax_errors rule 6: `\$\{([^}]+),\s*updatedAt:\s*new Date\(\)\}`
replaced by `${\1}`. -/
def fseRule6 : Rule :=
  (cat [lstr "$\x7b", RE.grp (RE.seq (RE.cls notRBrace) (RE.star notRBrace)),
        lstr ",", wsStar, lstr "updatedAt:", wsStar, lstr "new Date()\x7d"],
   [TPiece.txt "$\x7b".data, TPiece.ref 1, TPiece.txt "\x7d".data])

/-- fix_syntax_errors rule 7: `(getPaginationMeta\([^)]+limit),\s*\n`
replaced by `\1)\n`. -/
def fseRule7 : Rule :=
  (cat [RE.grp (cat [lstr "getPaginationMeta(", RE.cls notRParen,
          RE.star notRParen, lstr "limit"]),
        lstr ",", wsStar, lstr "\n"],
   [TPiece.ref 1, TPiece.txt ")\n".data])

/-- The ordered RuleSet of fix_syntax_errors.fix_syntax_errors (lines 22-44). -/
def fseRules : List Rule :=
  [fseRule1, fseRule2, fseRule3, fseRule4, fseRule5, fseRule6, fseRule7]

/-- The fix_syntax_errors.fix_syntax_errors function: the fold of its RuleSet
over a buffer (the source function is already pure). -/
def fixSyntaxErrors (s : String) : String := runRules fseRules s

/-- fix_remaining_syntax pattern 1:
`(\s+)(gte|lte):\s*([a-zA-Z_][a-zA-Z0-9_]*)\s*\n(\s+)(gte|lte):` replaced by
`\1\2: \3,\n\4\5:`. -/
def remRule1 : Rule :=
  (cat [RE.grp wsPlus, RE.grp (altStrs [ "gte", "lte"]), lstr ":", wsStar,
        RE.grp identRE, wsStar, lstr "\n", RE.grp wsPlus,
        RE.grp (altStrs [ "gte", "lte"]), lstr ":"],
   [TPiece.ref 1, TPiece.ref 2, TPiece.txt ": ".data, TPiece.ref 3,
    TPiece.txt ",\n".data, TPiece.ref 4, TPiece.ref 5, TPiece.txt ":".data])

/-- fix_remaining_syntax pattern 2:
`(\s+)([a-zA-Z_][a-zA-Z0-9_]*):\s*(true|false|null|[a-zA-Z_][a-zA-Z0-9_]*)\s*\n(\s+)([a-zA-Z_][a-zA-Z0-9_]*):`
replaced by `\1\2: \3,\n\4\5:`. -/
def remRule2 : Rule :=
  (cat [RE.grp wsPlus, RE.grp identRE, lstr ":", wsStar,
        RE.grp (RE.alt (lstr "true") (RE.alt (lstr "false")
          (RE.alt (lstr "null") identRE))),
        wsStar, lstr "\n", RE.grp wsPlus, RE.grp identRE, lstr ":"],
   [TPiece.ref 1, TPiece.ref 2, TPiece.txt ": ".data, TPiece.ref 3,
    TPiece.txt ",\n".data, TPiece.ref 4, TPiece.ref 5, TPiece.txt ":".data])

/-- fix_remaining_syntax pattern 3:
`(\}\))\s*\n(\s+)(skip|take|orderBy|where|include):` replaced by `\1,\n\2\3:`. -/
def remRule3 : Rule :=
  (cat [RE.grp (lstr "\x7d)"), wsStar, lstr "\n", RE.grp wsPlus,
        RE.grp (altStrs [ "skip", "take", "orderBy", "where", "include"]),
        lstr ":"],
   [TPiece.ref 1, TPiece.txt ",\n".data, TPiece.ref 2, TPiece.ref 3,
    TPiece.txt ":".data])

/-- fix_remaining_syntax pattern 4:
`(\s+)(type|dateRange|data|meta|filters|schedule|config|message|reportId):\s*([^\n,]+)\s*\n(\s+)([a-zA-Z_][a-zA-Z0-9_]*):`
replaced by `\1\2: \3,\n\4\5:`. -/
def remRule4 : Rule :=
  (cat [RE.grp wsPlus,
        RE.grp (altStrs [ "type", "dateRange", "data", "meta", "filters",
          "schedule", "config", "message", "reportId"]),
        lstr ":", wsStar, RE.grp (RE.seq (RE.cls notCommaNl) (RE.star notCommaNl)),
        wsStar, lstr "\n", RE.grp wsPlus, RE.grp identRE, lstr ":"],
   [TPiece.ref 1, TPiece.ref 2, TPiece.txt ": ".data, TPiece.ref 3,
    TPiece.txt ",\n".data, TPiece.ref 4, TPiece.ref 5, TPiece.txt ":".data])

/-- The alternation of property names in fix_remaining_syntax pattern 5. -/
def remNames : List String :=
  [ "id", "timestamp", "action", "resource", "resourceId", "outcome",
    "details", "ipAddress", "userAgent", "email", "displayName", "role",
    "createdAt", "severityLevel", "triggerType", "interventionType",
    "responseTime", "resolved", "resolvedAt", "emergencyContactUsed",
    "userAnonymousId", "reason", "evidence", "duration", "appealable",
    "appealed", "expiresAt", "moderator", "targetUser", "detectedAt",
    "type", "severity", "context", "indicators", "handled", "handledAt",
    "handledBy", "actions", "notes", "lastLoginAt", "lastActiveAt",
    "moodEntries", "journalEntries", "appointments", "name", "description",
    "createdBy"]

/-- fix_remaining_syntax pattern 5: same shape as pattern 4 with the long
property-name alternation `remNames`. -/
def remRule5 : Rule :=
  (cat [RE.grp wsPlus, RE.grp (altStrs remNames),
        lstr ":", wsStar, RE.grp (RE.seq (RE.cls notCommaNl) (RE.star notCommaNl)),
        wsStar, lstr "\n", RE.grp wsPlus, RE.grp identRE, lstr ":"],
   [TPiece.ref 1, TPiece.ref 2, TPiece.txt ": ".data, TPiece.ref 3,
    TPiece.txt ",\n".data, TPiece.ref 4, TPiece.ref 5, TPiece.txt ":".data])

/-- fix_remaining_syntax extra sub 1: `(\s+where)\s*\n` replaced by `\1,\n`. -/
def remRule6 : Rule :=
  (cat [RE.grp (RE.seq (RE.cls isPySpace) (RE.seq (RE.star isPySpace)
          (lstr "where"))),
        wsStar, lstr "\n"],
   [TPiece.ref 1, TPiece.txt ",\n".data])

/-- fix_remaining_syntax extra sub 2:
`(\s+include:\s*\{[^}]+\})\s*\n(\s+)(skip|take|orderBy):` replaced by
`\1,\n\2\3:`. -/
def remRule7 : Rule :=
  (cat [RE.grp (cat [RE.cls isPySpace, RE.star isPySpace, lstr "include:",
          wsStar, lstr "\x7b", RE.cls notRBrace, RE.star notRBrace,
          lstr "\x7d"]),
        wsStar, lstr "\n", RE.grp wsPlus,
        RE.grp (altStrs [ "skip", "take", "orderBy"]), lstr ":"],
   [TPiece.ref 1, TPiece.txt ",\n".data, TPiece.ref 2, TPiece.ref 3,
    TPiece.txt ":".data])

/-- The ordered substitutions of the fix_remaining_syntax module body
(the five `patterns` entries followed by the two extra subs). -/
def remRules : List Rule :=
  [remRule1, remRule2, remRule3, remRule4, remRule5, remRule6, remRule7]

/-- The rewrite applied by fix_remaining_syntax to its file's content. -/
def fixRemaining (s : String) : String := runRules remRules s

/-- Abstract file system: association list from path to content (most recent
binding first). -/
abbrev FS := List (String × String)

/-- Look a path up (os.path.exists / open-for-read). -/
def lookupFS (fs : FS) (p : String) : Option String :=
  match fs with
  | [] => none
  | e :: rest => if e.1 = p then some e.2 else lookupFS rest p

/-- Write a file (open-for-write + write). -/
def setFS (fs : FS) (p : String) (c : String) : FS := (p, c) :: fs

/-- Result of comprehensive_fix.fix_file_syntax on one path: the file system
afterwards, the returned flag, and the write events performed. -/
structure FileOutcome where
  fs : FS
  changed : Bool
  writes : List (String × String)

/-- comprehensive_fix.fix_file_syntax: missing file returns False with no
write; otherwise the RuleSet is folded over the content and the result is
written back exactly when it differs from the original (exact string
equality), returning True in that case. -/
def comprehensiveProcess (fs : FS) (p : String) : FileOutcome :=
  match lookupFS fs p with
  | none => ⟨fs, false, []⟩
  | some content =>
    let c2 := comprehensiveFix content
    if c2 = content then ⟨fs, false, []⟩
    else ⟨setFS fs p c2, true, [(p, c2)]⟩

/-- Accumulated state of the comprehensive_fix driver loop. -/
structure RunState where
  fs : FS
  count : Nat
  writes : List (String × String)
  log : List String

/-- One iteration of the comprehensive_fix loop: process the path, and on a
True result print the Fixed line and increment fixed_count. -/
def comprehensiveStep (st : RunState) (p : String) : RunState :=
  let o := comprehensiveProcess st.fs p
  if o.changed then
    ⟨o.fs, st.count + 1, st.writes ++ o.writes, st.log ++ [ "Fixed: " ++ p]⟩
  else ⟨o.fs, st.count, st.writes ++ o.writes, st.log⟩

/-- The comprehensive_fix driver: fold over the supplied path list, then print
the final count line. -/
def comprehensiveRun (fs : FS) (paths : List String) : RunState :=
  let st := paths.foldl comprehensiveStep ⟨fs, 0, [], []⟩
  ⟨st.fs, st.count, st.writes, st.log ++ [ "\nTotal files fixed: " ++ toString st.count]⟩

/-- Result of one fix_syntax_errors loop iteration. -/
structure FileRes where
  fs : FS
  writes : List (String × String)
  log : List String

/-- Body of the fix_syntax_errors per-file loop: a missing path prints the
File-not-found report and is skipped; otherwise the content is transformed
and written back only when it differs, with the corresponding report lines. -/
def fseProcessFile (fs : FS) (p : String) : FileRes :=
  match lookupFS fs p with
  | none => ⟨fs, [], [ "  File not found: " ++ p]⟩
  | some content =>
    let fixedContent := fixSyntaxErrors content
    if content = fixedContent then
      ⟨fs, [], [ "Processing " ++ p ++ "...", "  No changes needed in " ++ p]⟩
    else
      ⟨setFS fs p fixedContent, [(p, fixedContent)],
       [ "Processing " ++ p ++ "...", "  Fixed syntax errors in " ++ p]⟩

/-- The fix_syntax_errors driver over its path list, ending with Done!. -/
def fseRun (fs : FS) (paths : List String) : FileRes :=
  let r := paths.foldl
    (fun acc p =>
      let o := fseProcessFile acc.fs p
      ⟨o.fs, acc.writes ++ o.writes, acc.log ++ o.log⟩)
    (⟨fs, [], []⟩ : FileRes)
  ⟨r.fs, r.writes, r.log ++ [ "Done!"]⟩

/-- The single hard-coded path of fix_remaining_syntax. -/
def reportsPath : String := "src/app/api/admin/reports/route.ts"

/-- The fix_remaining_syntax module body: the file is opened without an
existence check (a missing file raises, modelled as none) and the transformed
content is written back unconditionally. -/
def remainingRun (fs : FS) : Option (FS × List (String × String)) :=
  match lookupFS fs reportsPath with
  | none => none
  | some content =>
    let c2 := fixRemaining content
    some (setFS fs reportsPath c2, [(reportsPath, c2)])

/-- Does the pattern match at some position of the string (i.e. would re.sub
replace anything)? -/
def scanHasMatch (r : RE) : List Char → Bool
  | [] => (firstMatch r []).isSome
  | c :: s => (firstMatch r (c :: s)).isSome || scanHasMatch r s

/-- All rules of the three scripts, in script order. -/
def allRules : List Rule :=
  [cfRule1, cfRule2, cfRule3, cfRule4, cfRule5, cfRule6, cfRule7,
   fseRule1, fseRule2, fseRule3, fseRule4, fseRule5, fseRule6, fseRule7,
   remRule1, remRule2, remRule3, remRule4, remRule5, remRule6, remRule7]

/-- Not a newline. -/
def notNl (c : Char) : Bool := !(c = '\n')

/-- The first line of a buffer (maximal newline-free prefix). -/
def firstLine (l : List Char) : List Char := l.takeWhile notNl

/-- Split a buffer into its lines (a trailing newline yields a final empty
line, like the display convention). -/
def lines : List Char → List (List Char)
  | [] => [[]]
  | c :: s =>
    if c = '\n' then [] :: lines s
    else
      match lines s with
      | [] => [[c]]
      | L :: LS => (c :: L) :: LS

/-- A line of the shape `identifier: value,` targeted by fix_syntax_errors
rule 2: optional leading whitespace, an identifier, a colon, a nonempty value
containing no comma, and a terminating comma as the last character. -/
def BadLine (l : List Char) : Prop :=
  ∃ W i0 I V, l = W ++ i0 :: (I ++ ':' :: (V ++ [','])) ∧
    W.all isPySpace ∧ isIdentStart i0 ∧ I.all isIdentChar ∧
    V ≠ [] ∧ V.all notCommaNl

/-- Relational semantics of the matcher: `RM r s u caps caps2` holds when `r`
can match a prefix of `s` leaving suffix `u`, extending the capture list
`caps` to `caps2`.  The constructors mirror the candidate space explored by
`mtch`. -/
inductive RM : RE → List Char → List Char → List (List Char) → List (List Char) → Prop where
  | eps : ∀ s caps, RM RE.eps s s caps caps
  | lit : ∀ cs s caps, RM (RE.lit cs) (cs ++ s) s caps caps
  | cls : ∀ p c s caps, p c = true → RM (RE.cls p) (c :: s) s caps caps
  | star : ∀ p a s caps, a.all p = true → RM (RE.star p) (a ++ s) s caps caps
  | eolNil : ∀ caps, RM RE.eol [] [] caps caps
  | eolNl : ∀ s caps, RM RE.eol ('\n' :: s) ('\n' :: s) caps caps
  | seq : ∀ a b s u v caps c1 c2, RM a s u caps c1 → RM b u v c1 c2 →
      RM (RE.seq a b) s v caps c2
  | altL : ∀ a b s u caps c2, RM a s u caps c2 → RM (RE.alt a b) s u caps c2
  | altR : ∀ a b s u caps c2, RM b s u caps c2 → RM (RE.alt a b) s u caps c2
  | grp : ∀ r s u caps c1, RM r s u caps c1 →
      RM (RE.grp r) s u caps (c1 ++ [s.take (s.length - u.length)])

/-- C1 counterexample: on the buffer `a: x\n b: y\n c: z` the first full
comprehensive_fix pass reports changed (it inserts only the first missing
comma, because the second candidate overlaps the first match), and re-running
the full RuleSet on the result changes it again — so the output of a changed
run is not a fixed point, contradicting the claim. -/
theorem c1_fixpoint_counterexample :
    comprehensiveFix "a: x\n b: y\n c: z" ≠ "a: x\n b: y\n c: z" ∧
    comprehensiveFix (comprehensiveFix "a: x\n b: y\n c: z") ≠
      comprehensiveFix "a: x\n b: y\n c: z" := by
  decide

/-- C1 amended: a changed run's output need not be a fixed point of the
RuleSet.  With three sibling property lines missing commas, the first pass
inserts one comma and reports changed, the second pass inserts another and
also reports changed, and only the third pass leaves the buffer fixed. -/
theorem c1_three_pass_convergence :
    comprehensiveFix "a: x\n b: y\n c: z" = "a: x,\n b: y\n c: z" ∧
    comprehensiveFix "a: x,\n b: y\n c: z" = "a: x,\n b: y,\n c: z" ∧
    comprehensiveFix "a: x,\n b: y,\n c: z" = "a: x,\n b: y,\n c: z" := by
  decide

/-- C2 counterexample: fix_remaining_syntax writes its file unconditionally.
With content on which the transformation is the identity (here the empty
buffer), the claim says no write occurs, but the run still performs a write
event. -/
theorem c2_unconditional_write_counterexample :
    fixRemaining "" = "" ∧
    remainingRun [(reportsPath, "")] =
      some ([(reportsPath, ""), (reportsPath, "")], [(reportsPath, "")]) := by
  constructor
  · decide
  · rfl

/-- C2 amended: in comprehensive_fix and fix_syntax_errors a write occurs iff
the transformed buffer differs from the original under exact string equality
(and an unchanged buffer leaves the file system untouched), while
fix_remaining_syntax always writes, though what it writes is exactly the
transformed buffer. -/
theorem c2_write_gated (fs : FS) (p c : String) (h : lookupFS fs p = some c) :
    ((comprehensiveProcess fs p).writes ≠ [] ↔ comprehensiveFix c ≠ c) ∧
    (comprehensiveFix c = c → (comprehensiveProcess fs p).fs = fs) ∧
    ((fseProcessFile fs p).writes ≠ [] ↔ fixSyntaxErrors c ≠ c) ∧
    (fixSyntaxErrors c = c → (fseProcessFile fs p).fs = fs) ∧
    (∀ d, lookupFS fs reportsPath = some d →
      remainingRun fs =
        some (setFS fs reportsPath (fixRemaining d), [(reportsPath, fixRemaining d)])) := by
  refine ⟨?_, ?_, ?_, ?_, ?_⟩
  · by_cases hc : comprehensiveFix c = c <;>
      simp [comprehensiveProcess, h, hc]
  · intro hc
    simp [comprehensiveProcess, h, hc]
  · by_cases hc : c = fixSyntaxErrors c
    · simp [fseProcessFile, h, ← hc]
    · simp [fseProcessFile, h, hc, Ne.symm hc]
  · intro hc
    simp [fseProcessFile, h, hc]
  · intro d hd
    simp [remainingRun, hd]

/-- C2 witness for the amended theorem at a concrete file system. -/
theorem c2_write_gated_witness :
    lookupFS [( "a.ts", "")] "a.ts" = some "" ∧
    ((comprehensiveProcess [( "a.ts", "")] "a.ts").writes ≠ [] ↔
      comprehensiveFix "" ≠ "") :=
  ⟨by decide, (c2_write_gated [( "a.ts", "")] "a.ts" "" (by decide)).1⟩

/-- C3 counterexample: comprehensive_fix does not report a missing file at
all — running it on a single nonexistent path emits only the final count
line, no per-file missing report, contradicting the claim that every missing
input path is reported. -/
theorem c3_silent_skip_counterexample :
    (comprehensiveRun [] [ "a.ts"]).log = [ "\nTotal files fixed: 0"] := by
  rfl

/-- C3 amended: a missing path is skipped without raising, produces no write,
leaves the file system unchanged, is excluded from the changed-files count,
and processing continues with the remaining paths; fix_syntax_errors
additionally prints a File-not-found report, while comprehensive_fix skips
silently. -/
theorem c3_missing_file_skipped (fs : FS) (p : String) (rest : List String)
    (h : lookupFS fs p = none) :
    fseProcessFile fs p = ⟨fs, [], [ "  File not found: " ++ p]⟩ ∧
    (∀ n w lg, comprehensiveStep ⟨fs, n, w, lg⟩ p = ⟨fs, n, w, lg⟩) ∧
    comprehensiveRun fs (p :: rest) = comprehensiveRun fs rest := by
  have hstep : ∀ n w lg, comprehensiveStep ⟨fs, n, w, lg⟩ p = ⟨fs, n, w, lg⟩ := by
    intro n w lg
    simp [comprehensiveStep, comprehensiveProcess, h]
  refine ⟨?_, hstep, ?_⟩
  · simp [fseProcessFile, h]
  · simp only [comprehensiveRun, List.foldl_cons, hstep 0 [] []]

/-- C3 witness for the amended theorem at a concrete file system. -/
theorem c3_missing_file_skipped_witness :
    lookupFS [] "a.ts" = none ∧
    comprehensiveRun [] [ "a.ts", "b.ts"] = comprehensiveRun [] [ "b.ts"] :=
  ⟨by decide, (c3_missing_file_skipped [] "a.ts" [ "b.ts"] (by decide)).2.2⟩

/-- C4 counterexample: on `{, updatedAt: new Date()}` neither RuleSet
produces the specified `{ updatedAt: new Date() }` — no space is inserted
before the closing brace. -/
theorem c4_scenario_counterexample :
    fixSyntaxErrors "\x7b, updatedAt: new Date()\x7d" ≠
      "\x7b updatedAt: new Date() \x7d" ∧
    comprehensiveFix "\x7b, updatedAt: new Date()\x7d" ≠
      "\x7b updatedAt: new Date() \x7d" := by
  decide

/-- C4 amended: a full pass (of either rule set) turns
`{, updatedAt: new Date()}` into `{ updatedAt: new Date()}`: the brace-comma
is repaired to an open brace plus space, but the rules that would insert the
space before the closing brace require a comma before `updatedAt`, which the
earlier rule has already consumed, so the closing brace keeps no space. -/
theorem c4_scenario_actual :
    fixSyntaxErrors "\x7b, updatedAt: new Date()\x7d" =
      "\x7b updatedAt: new Date()\x7d" ∧
    comprehensiveFix "\x7b, updatedAt: new Date()\x7d" =
      "\x7b updatedAt: new Date()\x7d" := by
  decide

/-- C5 counterexample: on the unindented pair `gte: startDate` newline
`lte: endDate`, no rule of comprehensive_fix (nor of fix_remaining_syntax)
matches — the patterns require the following property line to begin with
whitespace — so no comma is inserted and the specified output is not
produced. -/
theorem c5_scenario_counterexample :
    comprehensiveFix "gte: startDate\nlte: endDate" ≠
      "gte: startDate,\nlte: endDate" ∧
    fixRemaining "gte: startDate\nlte: endDate" ≠
      "gte: startDate,\nlte: endDate" := by
  decide

/-- C5 amended: the missing-comma rules fire only when the second property
line is indented (`(\s+)` in the patterns); for the indented pair both rule
sets insert the comma, while the unindented pair of the claim is left
entirely unchanged. -/
theorem c5_scenario_actual :
    comprehensiveFix "gte: startDate\nlte: endDate" =
      "gte: startDate\nlte: endDate" ∧
    fixRemaining "gte: startDate\nlte: endDate" =
      "gte: startDate\nlte: endDate" ∧
    comprehensiveFix "  gte: startDate\n  lte: endDate" =
      "  gte: startDate,\n  lte: endDate" ∧
    fixRemaining "  gte: startDate\n  lte: endDate" =
      "  gte: startDate,\n  lte: endDate" := by
  decide

/-- C6: scenario 3 — fix_syntax_errors rewrites the buffer `new Date(,` to
`new Date(),`, replacing the trailing comma of the unclosed construction call
by a closing parenthesis followed by a comma. -/
theorem c6_new_date_scenario : fixSyntaxErrors "new Date(," = "new Date()," := by
  decide

/-- C7: scenario 2 — a full comprehensive_fix pass turns `foo(bar,` newline
`)` into exactly `foo(bar)`: the comma and the whitespace between it and the
closing parenthesis are removed. -/
theorem c7_stray_comma_scenario : comprehensiveFix "foo(bar,\n)" = "foo(bar)" := by
  decide

/-- Looking up a path right after writing it returns the written content. -/
theorem lookupFS_setFS (fs : FS) (p c : String) :
    lookupFS (setFS fs p c) p = some c := by
  simp [lookupFS, setFS]

/-- comprehensive_fix on an already-fixed buffer: no write, False. -/
theorem comprehensiveProcess_of_fixed (fs : FS) (p c : String)
    (h : lookupFS fs p = some c) (hc : comprehensiveFix c = c) :
    comprehensiveProcess fs p = ⟨fs, false, []⟩ := by
  simp [comprehensiveProcess, h, hc]

/-- comprehensive_fix on a changing buffer: write-back of the fold, True. -/
theorem comprehensiveProcess_of_changed (fs : FS) (p c : String)
    (h : lookupFS fs p = some c) (hc : ¬ comprehensiveFix c = c) :
    comprehensiveProcess fs p =
      ⟨setFS fs p (comprehensiveFix c), true, [(p, comprehensiveFix c)]⟩ := by
  simp [comprehensiveProcess, h, hc]

/-- fix_syntax_errors loop body on an already-fixed buffer: no write. -/
theorem fseProcessFile_of_fixed (fs : FS) (p c : String)
    (h : lookupFS fs p = some c) (hf : c = fixSyntaxErrors c) :
    fseProcessFile fs p =
      ⟨fs, [], [ "Processing " ++ p ++ "...", "  No changes needed in " ++ p]⟩ := by
  simp [fseProcessFile, h, ← hf]

/-- fix_syntax_errors loop body on a changing buffer: write-back. -/
theorem fseProcessFile_of_changed (fs : FS) (p c : String)
    (h : lookupFS fs p = some c) (hf : ¬ c = fixSyntaxErrors c) :
    fseProcessFile fs p =
      ⟨setFS fs p (fixSyntaxErrors c), [(p, fixSyntaxErrors c)],
       [ "Processing " ++ p ++ "...", "  Fixed syntax errors in " ++ p]⟩ := by
  simp [fseProcessFile, h, hf]

/-- C8: purity and determinism.  Processing any two files holding the same
content (in arbitrary file-system states) yields the same changed verdict and
leaves each file holding exactly the fold of the RuleSet over that content —
the transformation depends only on the buffer, not on file identity, on
processing order, or on other files; likewise the contents written by the
fix_syntax_errors loop body agree. -/
theorem c8_purity (fs1 fs2 : FS) (p1 p2 c : String)
    (h1 : lookupFS fs1 p1 = some c) (h2 : lookupFS fs2 p2 = some c) :
    (comprehensiveProcess fs1 p1).changed = (comprehensiveProcess fs2 p2).changed ∧
    lookupFS (comprehensiveProcess fs1 p1).fs p1 = some (comprehensiveFix c) ∧
    lookupFS (comprehensiveProcess fs2 p2).fs p2 = some (comprehensiveFix c) ∧
    (fseProcessFile fs1 p1).writes.map Prod.snd =
      (fseProcessFile fs2 p2).writes.map Prod.snd := by
  by_cases hc : comprehensiveFix c = c <;> by_cases hf : c = fixSyntaxErrors c
  · rw [comprehensiveProcess_of_fixed fs1 p1 c h1 hc,
      comprehensiveProcess_of_fixed fs2 p2 c h2 hc,
      fseProcessFile_of_fixed fs1 p1 c h1 hf,
      fseProcessFile_of_fixed fs2 p2 c h2 hf]
    exact ⟨rfl, by rw [hc]; exact h1, by rw [hc]; exact h2, rfl⟩
  · rw [comprehensiveProcess_of_fixed fs1 p1 c h1 hc,
      comprehensiveProcess_of_fixed fs2 p2 c h2 hc,
      fseProcessFile_of_changed fs1 p1 c h1 hf,
      fseProcessFile_of_changed fs2 p2 c h2 hf]
    exact ⟨rfl, by rw [hc]; exact h1, by rw [hc]; exact h2, rfl⟩
  · rw [comprehensiveProcess_of_changed fs1 p1 c h1 hc,
      comprehensiveProcess_of_changed fs2 p2 c h2 hc,
      fseProcessFile_of_fixed fs1 p1 c h1 hf,
      fseProcessFile_of_fixed fs2 p2 c h2 hf]
    exact ⟨rfl, lookupFS_setFS _ _ _, lookupFS_setFS _ _ _, rfl⟩
  · rw [comprehensiveProcess_of_changed fs1 p1 c h1 hc,
      comprehensiveProcess_of_changed fs2 p2 c h2 hc,
      fseProcessFile_of_changed fs1 p1 c h1 hf,
      fseProcessFile_of_changed fs2 p2 c h2 hf]
    exact ⟨rfl, lookupFS_setFS _ _ _, lookupFS_setFS _ _ _, rfl⟩

/-- C8 witness at two concrete file systems holding the same content under
different paths. -/
theorem c8_purity_witness :
    lookupFS [( "a.ts", "x")] "a.ts" = some "x" ∧
    lookupFS [( "b.ts", "q"), ( "c.ts", "x")] "c.ts" = some "x" ∧
    (comprehensiveProcess [( "a.ts", "x")] "a.ts").changed =
      (comprehensiveProcess [( "b.ts", "q"), ( "c.ts", "x")] "c.ts").changed :=
  ⟨by decide, by decide,
   (c8_purity [( "a.ts", "x")] [( "b.ts", "q"), ( "c.ts", "x")] "a.ts" "c.ts" "x"
     (by decide) (by decide)).1⟩

/-- A pattern that matches nowhere in the buffer leaves the whole re.sub scan
as the identity, for any amount of fuel. -/
theorem subFuel_no_match (r : RE) (t : List TPiece) :
    ∀ (f : Nat) (s : List Char), scanHasMatch r s = false → subFuel r t f s = s := by
  intro f
  induction f with
  | zero => intro s _; rfl
  | succ f ih =>
    intro s h
    cases s with
    | nil =>
      cases hm : firstMatch r [] with
      | some v => simp only [scanHasMatch, hm] at h; simp at h
      | none => simp [subFuel, hm]
    | cons c s2 =>
      cases hm : firstMatch r (c :: s2) with
      | some v => simp only [scanHasMatch, hm] at h; simp at h
      | none =>
        simp only [scanHasMatch, hm] at h
        simp at h
        simp [subFuel, hm, ih s2 h]

/-- C9: rule totality and the no-op property.  Every rule of every script's
RuleSet is a total string transformation (a Lean function, so the fold of any
RuleSet always returns a string and cannot raise), and whenever a rule's
pattern matches nowhere in the buffer the rule returns the buffer
unchanged. -/
theorem c9_rules_noop (ru : Rule) (_hru : ru ∈ allRules) (s : String)
    (h : scanHasMatch ru.1 s.data = false) : reSub ru s = s := by
  obtain ⟨d⟩ := s
  show String.mk (subFuel ru.1 ru.2 (d.length + 1) d) = String.mk d
  rw [subFuel_no_match ru.1 ru.2 (d.length + 1) d h]

/-- C9 witness: the `new Date\(,` rule applied to a buffer without the
pattern. -/
theorem c9_rules_noop_witness :
    fseRule3 ∈ allRules ∧ scanHasMatch fseRule3.1 "abc".data = false ∧
    reSub fseRule3 "abc" = "abc" := by
  have hm : fseRule3 ∈ allRules := by
    unfold allRules
    exact List.Mem.tail _ (List.Mem.tail _ (List.Mem.tail _ (List.Mem.tail _
      (List.Mem.tail _ (List.Mem.tail _ (List.Mem.tail _ (List.Mem.tail _
      (List.Mem.tail _ (List.Mem.head _)))))))))
  exact ⟨hm, by decide, c9_rules_noop fseRule3 hm "abc" (by decide)⟩

/-- Membership in the greedy-star candidate list. -/
theorem mem_dropsDesc_iff {s x : List Char} {n : Nat} :
    x ∈ dropsDesc s n ↔ ∃ j, j ≤ n ∧ x = s.drop j := by
  induction n with
  | zero =>
    simp [dropsDesc]
  | succ n ih =>
    simp only [dropsDesc, List.mem_cons, ih]
    constructor
    · rintro (rfl | ⟨j, hj, rfl⟩)
      · exact ⟨n + 1, le_rfl, rfl⟩
      · exact ⟨j, Nat.le_succ_of_le hj, rfl⟩
    · rintro ⟨j, hj, rfl⟩
      rcases Nat.lt_or_ge j (n + 1) with h | h
      · exact Or.inr ⟨j, Nat.lt_succ_iff.mp h, rfl⟩
      · exact Or.inl (by rw [Nat.le_antisymm hj h])

/-- If `findSome?` succeeds there is a member on which the function succeeds. -/
theorem exists_of_findSome?_isSome {α β : Type} {l : List α} {f : α → Option β}
    (h : (l.findSome? f).isSome) : ∃ x ∈ l, (f x).isSome := by
  induction l with
  | nil => simp [List.findSome?] at h
  | cons a l ih =>
    rw [List.findSome?] at h
    cases hfa : f a with
    | some b => exact ⟨a, List.mem_cons_self a l, by simp [hfa]⟩
    | none =>
      rw [hfa] at h
      obtain ⟨x, hx, hfx⟩ := ih h
      exact ⟨x, List.mem_cons_of_mem a hx, hfx⟩

/-- findSome? succeeds on a list containing an element on which the function
succeeds. -/
theorem findSome?_isSome_of_mem {α β : Type} {l : List α} {x : α} {f : α → Option β}
    (hx : x ∈ l) (hf : (f x).isSome) : (l.findSome? f).isSome := by
  induction l with
  | nil => cases hx
  | cons a l ih =>
    rw [List.findSome?]
    cases hfa : f a with
    | some b => simp
    | none =>
      rcases List.mem_cons.mp hx with rfl | hx2
      · rw [hfa] at hf; cases hf
      · exact ih hx2

/-- The same, in the form `findSome? = some`. -/
theorem exists_of_findSome?_eq_some' {α β : Type} {l : List α} {f : α → Option β}
    {b : β} (h : l.findSome? f = some b) : ∃ x ∈ l, f x = some b := by
  induction l with
  | nil => simp [List.findSome?] at h
  | cons a l ih =>
    rw [List.findSome?] at h
    cases hfa : f a with
    | some c =>
      rw [hfa] at h
      have hcb : some c = some b := h
      exact ⟨a, List.mem_cons_self a l, by rw [hfa]; exact hcb⟩
    | none =>
      rw [hfa] at h
      obtain ⟨x, hx, hfx⟩ := ih h
      exact ⟨x, List.mem_cons_of_mem a hx, hfx⟩

/-- A prefix whose characters all satisfy `p` is no longer than the maximal
run. -/
theorem length_le_runLen_of_all {p : Char → Bool} :
    ∀ {a b : List Char}, a.all p = true → a.length ≤ runLen p (a ++ b) := by
  intro a
  induction a with
  | nil => intro b _; exact Nat.zero_le _
  | cons c a ih =>
    intro b h
    rw [List.all_cons, Bool.and_eq_true] at h
    simpa [runLen, h.1] using ih h.2

/-- Any prefix of length at most the maximal run satisfies `p` throughout. -/
theorem all_take_of_le_runLen {p : Char → Bool} :
    ∀ {s : List Char} {j : Nat}, j ≤ runLen p s → (s.take j).all p = true := by
  intro s
  induction s with
  | nil => intro j _; simp
  | cons c s ih =>
    intro j hj
    cases j with
    | zero => simp
    | succ j =>
      by_cases hp : p c
      · rw [runLen, if_pos hp] at hj
        simp only [List.take_succ_cons, List.all_cons, hp, Bool.true_and]
        exact ih (Nat.succ_le_succ_iff.mp hj)
      · rw [runLen, if_neg hp] at hj
        cases hj

/-- Soundness of the matcher with respect to the relational semantics: any
accepted result factors through a relational match and the continuation. -/
theorem mtch_sound : ∀ (r : RE) (s : List Char) (caps : List (List Char))
    (k : List Char → List (List Char) → MRes) (res : List (List Char) × List Char),
    mtch r s caps k = some res →
    ∃ u caps2, RM r s u caps caps2 ∧ k u caps2 = some res := by
  intro r
  induction r with
  | eps =>
    intro s caps k res h
    exact ⟨s, caps, RM.eps s caps, h⟩
  | lit cs =>
    intro s caps k res h
    rw [mtch] at h
    by_cases hp : cs.isPrefixOf s
    · rw [if_pos hp] at h
      obtain ⟨t, rfl⟩ := List.isPrefixOf_iff_prefix.mp hp
      rw [List.drop_left] at h
      exact ⟨t, caps, RM.lit cs t caps, h⟩
    · rw [if_neg hp] at h
      cases h
  | cls p =>
    intro s caps k res h
    cases s with
    | nil => rw [mtch] at h; cases h
    | cons c s2 =>
      rw [mtch] at h
      by_cases hp : p c
      · rw [if_pos hp] at h
        exact ⟨s2, caps, RM.cls p c s2 caps hp, h⟩
      · rw [if_neg hp] at h
        cases h
  | star p =>
    intro s caps k res h
    rw [mtch] at h
    obtain ⟨x, hx, hfx⟩ := exists_of_findSome?_eq_some' h
    obtain ⟨j, hj, rfl⟩ := mem_dropsDesc_iff.mp hx
    refine ⟨s.drop j, caps, ?_, hfx⟩
    have := RM.star p (s.take j) (s.drop j) caps (all_take_of_le_runLen hj)
    rwa [List.take_append_drop] at this
  | eol =>
    intro s caps k res h
    cases s with
    | nil =>
      rw [mtch] at h
      exact ⟨[], caps, RM.eolNil caps, h⟩
    | cons c s2 =>
      rw [mtch] at h
      by_cases hc : c = '\n'
      · rw [if_pos hc] at h
        subst hc
        exact ⟨'\n' :: s2, caps, RM.eolNl s2 caps, h⟩
      · rw [if_neg hc] at h
        cases h
  | seq a b iha ihb =>
    intro s caps k res h
    rw [mtch] at h
    obtain ⟨u, c1, hra, h2⟩ := iha s caps _ res h
    obtain ⟨v, c2, hrb, h3⟩ := ihb u c1 k res h2
    exact ⟨v, c2, RM.seq a b s u v caps c1 c2 hra hrb, h3⟩
  | alt a b iha ihb =>
    intro s caps k res h
    rw [mtch] at h
    cases hma : mtch a s caps k with
    | some v =>
      rw [hma] at h
      obtain ⟨u, c2, hra, h2⟩ := iha s caps k v hma
      cases h
      exact ⟨u, c2, RM.altL a b s u caps c2 hra, h2⟩
    | none =>
      rw [hma] at h
      obtain ⟨u, c2, hrb, h2⟩ := ihb s caps k res h
      exact ⟨u, c2, RM.altR a b s u caps c2 hrb, h2⟩
  | grp r ihr =>
    intro s caps k res h
    rw [mtch] at h
    obtain ⟨u, c1, hrr, h2⟩ := ihr s caps _ res h
    exact ⟨u, c1 ++ [s.take (s.length - u.length)], RM.grp r s u caps c1 hrr, h2⟩

/-- Completeness for success: if the relational semantics admits a match whose
continuation succeeds, the matcher succeeds. -/
theorem mtch_complete {r : RE} {s u : List Char} {caps caps2 : List (List Char)}
    (h : RM r s u caps caps2) :
    ∀ k : List Char → List (List Char) → MRes,
    (k u caps2).isSome → (mtch r s caps k).isSome := by
  induction h with
  | eps s caps =>
    intro k hk
    exact hk
  | lit cs s caps =>
    intro k hk
    have hp : cs.isPrefixOf (cs ++ s) := List.isPrefixOf_iff_prefix.mpr ⟨s, rfl⟩
    rw [mtch, if_pos hp, List.drop_left]
    exact hk
  | cls p c s caps hp =>
    intro k hk
    rw [mtch, if_pos hp]
    exact hk
  | star p a s caps ha =>
    intro k hk
    rw [mtch]
    refine findSome?_isSome_of_mem (mem_dropsDesc_iff.mpr ⟨a.length, ?_, ?_⟩) hk
    · exact length_le_runLen_of_all ha
    · rw [List.drop_left]
  | eolNil caps =>
    intro k hk
    exact hk
  | eolNl s caps =>
    intro k hk
    rw [mtch]
    simp only [if_pos rfl]
    exact hk
  | seq a b s u v caps c1 c2 hra hrb iha ihb =>
    intro k hk
    rw [mtch]
    exact iha _ (ihb k hk)
  | altL a b s u caps c2 hra iha =>
    intro k hk
    rw [mtch]
    cases hma : mtch a s caps k with
    | some v => simp
    | none =>
      have := iha k hk
      rw [hma] at this
      cases this
  | altR a b s u caps c2 hrb ihb =>
    intro k hk
    rw [mtch]
    cases hma : mtch a s caps k with
    | some v => simp
    | none => exact ihb k hk
  | grp r s u caps c1 hrr ihr =>
    intro k hk
    rw [mtch]
    exact ihr _ hk

/-- A relational match starting with empty captures witnesses firstMatch. -/
theorem firstMatch_isSome_of_RM {r : RE} {s u : List Char} {caps2 : List (List Char)}
    (h : RM r s u [] caps2) : (firstMatch r s).isSome :=
  mtch_complete h _ (by simp)

/-- firstMatch successes are relational matches with the returned captures
and suffix. -/
theorem firstMatch_sound {r : RE} {s rest : List Char} {caps : List (List Char)}
    (h : firstMatch r s = some (caps, rest)) : RM r s rest [] caps := by
  obtain ⟨u, c2, hr, hk⟩ := mtch_sound r s [] _ (caps, rest) h
  cases hk
  exact hr

/-- Inversion for sequencing. -/
theorem rm_seq_inv {a b : RE} {s v : List Char} {caps c2 : List (List Char)}
    (h : RM (RE.seq a b) s v caps c2) :
    ∃ u c1, RM a s u caps c1 ∧ RM b u v c1 c2 := by
  cases h with
  | seq _ _ _ u _ _ c1 _ ha hb => exact ⟨u, c1, ha, hb⟩

/-- Inversion for groups. -/
theorem rm_grp_inv {r : RE} {s u : List Char} {caps c2 : List (List Char)}
    (h : RM (RE.grp r) s u caps c2) :
    ∃ c1, RM r s u caps c1 ∧ c2 = c1 ++ [s.take (s.length - u.length)] := by
  cases h with
  | grp _ _ _ _ c1 hr => exact ⟨c1, hr, rfl⟩

/-- Inversion for greedy stars. -/
theorem rm_star_inv {p : Char → Bool} {s u : List Char} {caps c2 : List (List Char)}
    (h : RM (RE.star p) s u caps c2) :
    ∃ a, s = a ++ u ∧ a.all p = true ∧ c2 = caps := by
  cases h with
  | star _ a _ _ ha => exact ⟨a, rfl, ha, rfl⟩

/-- Inversion for single-character classes. -/
theorem rm_cls_inv {p : Char → Bool} {s u : List Char} {caps c2 : List (List Char)}
    (h : RM (RE.cls p) s u caps c2) :
    ∃ c, s = c :: u ∧ p c = true ∧ c2 = caps := by
  cases h with
  | cls _ c _ _ hc => exact ⟨c, rfl, hc, rfl⟩

/-- Inversion for literals. -/
theorem rm_lit_inv {cs s u : List Char} {caps c2 : List (List Char)}
    (h : RM (RE.lit cs) s u caps c2) : s = cs ++ u ∧ c2 = caps := by
  cases h with
  | lit => exact ⟨rfl, rfl⟩

/-- Inversion for the MULTILINE end-of-line anchor. -/
theorem rm_eol_inv {s u : List Char} {caps c2 : List (List Char)}
    (h : RM RE.eol s u caps c2) :
    s = u ∧ c2 = caps ∧ (u = [] ∨ ∃ t, u = '\n' :: t) := by
  cases h with
  | eolNil => exact ⟨rfl, rfl, Or.inl rfl⟩
  | eolNl t => exact ⟨rfl, rfl, Or.inr ⟨t, rfl⟩⟩

/-- Inversion for the empty regex. -/
theorem rm_eps_inv {s u : List Char} {caps c2 : List (List Char)}
    (h : RM RE.eps s u caps c2) : s = u ∧ c2 = caps := by
  cases h with
  | eps => exact ⟨rfl, rfl⟩

/-- Taking everything but a known suffix returns the prefix. -/
theorem take_eq_of_append_eq {s g r : List Char} (h : s = g ++ r) :
    s.take (s.length - r.length) = g := by
  subst h
  rw [List.length_append, Nat.add_sub_cancel, List.take_left]

/-- Full structural inversion of a match of the trailing-comma pattern of
fix_syntax_errors rule 2: the matched span decomposes into leading
whitespace, an identifier, a colon, post-colon whitespace, a nonempty
comma-free value, the matched comma and trailing whitespace, with the match
ending at a newline or at the end of the buffer, and the single capture being
everything before the comma. -/
theorem rm_fse2_decomp {s u : List Char} {caps c2 : List (List Char)}
    (h : RM fseRule2.1 s u caps c2) :
    ∃ W i0 I Pw v0 V Ws,
      s = W ++ i0 :: (I ++ ':' :: (Pw ++ v0 :: (V ++ ',' :: (Ws ++ u)))) ∧
      W.all isPySpace = true ∧ isIdentStart i0 = true ∧
      I.all isIdentChar = true ∧ Pw.all isPySpace = true ∧
      notCommaNl v0 = true ∧ V.all notCommaNl = true ∧
      Ws.all isPySpace = true ∧
      c2 = caps ++ [W ++ i0 :: (I ++ ':' :: (Pw ++ v0 :: V))] ∧
      (u = [] ∨ ∃ t, u = '\n' :: t) := by
  have h0 : RM (RE.seq
      (RE.grp (RE.seq (RE.star isPySpace) (RE.seq (RE.cls isIdentStart)
        (RE.seq (RE.star isIdentChar) (RE.seq (RE.lit [':'])
        (RE.seq (RE.star isPySpace) (RE.seq (RE.cls notCommaNl)
        (RE.seq (RE.star notCommaNl) RE.eps))))))))
      (RE.seq (RE.lit [','])
        (RE.seq (RE.star isPySpace) (RE.seq RE.eol RE.eps)))) s u caps c2 := h
  obtain ⟨u1, cg, hg, hrest⟩ := rm_seq_inv h0
  obtain ⟨c1, hinner, hcg⟩ := rm_grp_inv hg
  obtain ⟨u2, d1, hW, h2⟩ := rm_seq_inv hinner
  obtain ⟨W, rfl, hWall, rfl⟩ := rm_star_inv hW
  obtain ⟨u3, d2, hi, h3⟩ := rm_seq_inv h2
  obtain ⟨i0, rfl, hi0, rfl⟩ := rm_cls_inv hi
  obtain ⟨u4, d3, hI, h4⟩ := rm_seq_inv h3
  obtain ⟨I, rfl, hIall, rfl⟩ := rm_star_inv hI
  obtain ⟨u5, d4, hcol, h5⟩ := rm_seq_inv h4
  obtain ⟨rfl, rfl⟩ := rm_lit_inv hcol
  obtain ⟨u6, d5, hPw, h6⟩ := rm_seq_inv h5
  obtain ⟨Pw, rfl, hPwall, rfl⟩ := rm_star_inv hPw
  obtain ⟨u7, d6, hv0, h7⟩ := rm_seq_inv h6
  obtain ⟨v0, rfl, hv0c, rfl⟩ := rm_cls_inv hv0
  obtain ⟨u8, d7, hV, h8⟩ := rm_seq_inv h7
  obtain ⟨V, rfl, hVall, rfl⟩ := rm_star_inv hV
  obtain ⟨rfl, rfl⟩ := rm_eps_inv h8
  obtain ⟨u9, d8, hcomma, h9⟩ := rm_seq_inv hrest
  obtain ⟨rfl, rfl⟩ := rm_lit_inv hcomma
  obtain ⟨u10, d9, hWs, h10⟩ := rm_seq_inv h9
  obtain ⟨Ws, rfl, hWsall, rfl⟩ := rm_star_inv hWs
  obtain ⟨u11, d10, heol, h11⟩ := rm_seq_inv h10
  obtain ⟨rfl, rfl, heolshape⟩ := rm_eol_inv heol
  obtain ⟨rfl, rfl⟩ := rm_eps_inv h11
  refine ⟨W, i0, I, Pw, v0, V, Ws, by simp, hWall, hi0, hIall, hPwall, hv0c,
    hVall, hWsall, ?_, heolshape⟩
  rw [hcg]
  have hform : W ++ i0 :: (I ++ ([':'] ++ (Pw ++ v0 :: (V ++ ([','] ++ (Ws ++ u10)))))) =
      (W ++ i0 :: (I ++ ':' :: (Pw ++ v0 :: V))) ++ ([','] ++ (Ws ++ u10)) := by
    simp
  rw [take_eq_of_append_eq hform]

/-- The line split always starts with the first line. -/
theorem lines_eq_firstLine_cons : ∀ l : List Char, ∃ LS, lines l = firstLine l :: LS := by
  intro l
  induction l with
  | nil => exact ⟨[], rfl⟩
  | cons c s ih =>
    obtain ⟨LS, hLS⟩ := ih
    by_cases hc : c = '\n'
    · subst hc
      exact ⟨lines s, by simp [lines, firstLine, List.takeWhile, notNl]⟩
    · refine ⟨LS, ?_⟩
      have hnl : notNl c = true := by simp [notNl, hc]
      simp [lines, hc, hLS, firstLine, List.takeWhile, hnl]

/-- Prepending a non-newline character extends the first line. -/
theorem lines_cons_of_ne {c : Char} (hc : ¬ c = '\n') (x : List Char) :
    ∀ L LS, lines x = L :: LS → lines (c :: x) = (c :: L) :: LS := by
  intro L LS hx
  rw [lines, if_neg hc, hx]

/-- Splitting after an explicit newline concatenates the line lists. -/
theorem lines_append_nl : ∀ a b : List Char, lines (a ++ '\n' :: b) = lines a ++ lines b := by
  intro a b
  induction a with
  | nil => simp [lines]
  | cons c a ih =>
    by_cases hc : c = '\n'
    · subst hc
      simp [lines, ih]
    · obtain ⟨LS, hLS⟩ := lines_eq_firstLine_cons a
      have h1 : lines (a ++ '\n' :: b) = firstLine a :: (LS ++ lines b) := by
        rw [ih, hLS]
        rfl
      rw [List.cons_append, lines_cons_of_ne hc _ _ _ h1, lines_cons_of_ne hc _ _ _ hLS]
      rfl

/-- Every character of a line comes from the split buffer. -/
theorem mem_of_mem_lines : ∀ (x l : List Char), l ∈ lines x → ∀ c ∈ l, c ∈ x := by
  intro x
  induction x with
  | nil =>
    intro l hl c hc
    simp [lines] at hl
    subst hl
    cases hc
  | cons d x ih =>
    intro l hl c hc
    by_cases hd : d = '\n'
    · subst hd
      simp only [lines, if_pos rfl] at hl
      rcases List.mem_cons.mp hl with rfl | hl2
      · cases hc
      · exact List.mem_cons_of_mem _ (ih l hl2 c hc)
    · obtain ⟨LS, hLS⟩ := lines_eq_firstLine_cons x
      simp only [lines, hd, if_neg, hLS] at hl
      rcases List.mem_cons.mp hl with rfl | hl2
      · rcases List.mem_cons.mp hc with rfl | hc2
        · exact List.mem_cons_self _ _
        · refine List.mem_cons_of_mem _ (ih (firstLine x) ?_ c hc2)
          rw [hLS]
          exact List.mem_cons_self _ _
      · refine List.mem_cons_of_mem _ (ih l ?_ c hc)
        rw [hLS]
        exact List.mem_cons_of_mem _ hl2

/-- The first line of a buffer with an explicit newline after a prefix. -/
theorem firstLine_append_nl : ∀ a b : List Char, firstLine (a ++ '\n' :: b) = firstLine a := by
  intro a b
  induction a with
  | nil => simp [firstLine, List.takeWhile, notNl]
  | cons c a ih =>
    by_cases hc : c = '\n'
    · subst hc
      simp [firstLine, List.takeWhile, notNl]
    · have hnl : notNl c = true := by simp [notNl, hc]
      simp only [List.cons_append, firstLine, List.takeWhile, hnl]
      exact congrArg (fun l => c :: l) ih

/-- First line of a cons on a newline. -/
theorem firstLine_nl_cons (b : List Char) : firstLine ('\n' :: b) = [] := by
  simp [firstLine, List.takeWhile, notNl]

/-- First line of a cons on a non-newline character. -/
theorem firstLine_cons {c : Char} (hc : ¬ c = '\n') (b : List Char) :
    firstLine (c :: b) = c :: firstLine b := by
  have hnl : notNl c = true := by simp [notNl, hc]
  simp [firstLine, List.takeWhile, hnl]

/-- A bad line contains a comma. -/
theorem badLine_mem_comma {l : List Char} (h : BadLine l) : ',' ∈ l := by
  obtain ⟨W, i0, I, V, rfl, _, _, _, _, _⟩ := h
  simp

/-- A bad line ends with the comma. -/
theorem badLine_split {l : List Char} (h : BadLine l) :
    ∃ pre, l = pre ++ [','] := by
  obtain ⟨W, i0, I, V, rfl, _, _, _, _, _⟩ := h
  exact ⟨W ++ i0 :: (I ++ ':' :: V), by simp⟩

/-- The last element of a concatenation with a nonempty right part. -/
theorem getLast?_append_right : ∀ (a b : List Char), b ≠ [] →
    (a ++ b).getLast? = b.getLast? := by
  intro a
  induction a with
  | nil => intro b _; rfl
  | cons c a ih =>
    intro b hb
    rw [List.cons_append]
    rw [List.getLast?_cons]
    rw [ih b hb]
    cases b with
    | nil => exact absurd rfl hb
    | cons d b => simp [List.getLast?_cons]

/-- The capture of the trailing-comma rule contains no comma: whitespace,
identifier characters, the colon and comma-free value characters are all
distinct from a comma. -/
theorem capture_no_comma {W I Pw V : List Char} {i0 v0 : Char}
    (hW : W.all isPySpace = true) (hi0 : isIdentStart i0 = true)
    (hI : I.all isIdentChar = true) (hPw : Pw.all isPySpace = true)
    (hv0 : notCommaNl v0 = true) (hV : V.all notCommaNl = true) :
    ¬ ',' ∈ (W ++ i0 :: (I ++ ':' :: (Pw ++ v0 :: V))) := by
  intro hmem
  simp only [List.mem_append, List.mem_cons] at hmem
  rcases hmem with hW2 | hi2 | hI2 | hcol | hPw2 | hv2 | hV2
  · have := List.all_eq_true.mp hW _ hW2
    exact absurd this (by decide)
  · rw [← hi2] at hi0
    exact absurd hi0 (by decide)
  · have := List.all_eq_true.mp hI _ hI2
    exact absurd this (by decide)
  · cases hcol
  · have := List.all_eq_true.mp hPw _ hPw2
    exact absurd this (by decide)
  · rw [← hv2] at hv0
    exact absurd hv0 (by decide)
  · have := List.all_eq_true.mp hV _ hV2
    exact absurd this (by decide)

/-- Completeness construction: a bad line followed by a newline (or by
nothing) always admits a match of the trailing-comma pattern starting at the
line's first character. -/
theorem badLine_match {p t : List Char} (hb : BadLine p)
    (ht : t = [] ∨ ∃ r, t = '\n' :: r) :
    (firstMatch fseRule2.1 (p ++ t)).isSome := by
  obtain ⟨W, i0, I, V, rfl, hW, hi0, hI, hVne, hV⟩ := hb
  cases V with
  | nil => exact absurd rfl hVne
  | cons v0 V2 =>
    have hv0 : notCommaNl v0 = true := List.all_eq_true.mp hV _ (List.mem_cons_self _ _)
    have hV2 : V2.all notCommaNl = true := by
      rw [List.all_cons, Bool.and_eq_true] at hV
      exact hV.2
    have hrw : (W ++ i0 :: (I ++ ':' :: ((v0 :: V2) ++ [','])) ++ t) =
        W ++ (i0 :: (I ++ (':' :: (v0 :: (V2 ++ (',' :: t)))))) := by
      simp
    have heolK : ∀ cp : List (List Char), RM RE.eol t t cp cp := by
      intro cp
      rcases ht with rfl | ⟨r, rfl⟩
      · exact RM.eolNil cp
      · exact RM.eolNl r cp
    have hR : ∃ c2, RM fseRule2.1
        (W ++ (i0 :: (I ++ (':' :: (v0 :: (V2 ++ (',' :: t))))))) t [] c2 := by
      exact ⟨_, RM.seq _ _ _ _ _ _ _ _
        (RM.grp _ _ _ _ _
          (RM.seq _ _ _ _ _ _ _ _ (RM.star isPySpace W _ _ hW)
            (RM.seq _ _ _ _ _ _ _ _ (RM.cls isIdentStart i0 _ _ hi0)
              (RM.seq _ _ _ _ _ _ _ _ (RM.star isIdentChar I _ _ hI)
                (RM.seq _ _ _ _ _ _ _ _ (RM.lit [':'] _ _)
                  (RM.seq _ _ _ _ _ _ _ _ (RM.star isPySpace [] _ _ rfl)
                    (RM.seq _ _ _ _ _ _ _ _ (RM.cls notCommaNl v0 _ _ hv0)
                      (RM.seq _ _ _ _ _ _ _ _ (RM.star notCommaNl V2 _ _ hV2)
                        (RM.eps _ _)))))))))
        (RM.seq _ _ _ _ _ _ _ _ (RM.lit [','] _ _)
          (RM.seq _ _ _ _ _ _ _ _ (RM.star isPySpace [] _ _ rfl)
            (RM.seq _ _ _ _ _ _ _ _ (heolK _) (RM.eps _ _))))⟩
    obtain ⟨c2, hR⟩ := hR
    rw [hrw]
    exact firstMatch_isSome_of_RM hR

/-- The trailing-comma pattern does not match the empty buffer. -/
theorem fse2_empty_no_match : firstMatch fseRule2.1 [] = none := by
  decide

/-- The replacement template of the trailing-comma rule reproduces its single
capture. -/
theorem fse2_template (g : List Char) : applyTemplate fseRule2.2 [g] = g := by
  simp [applyTemplate, fseRule2]

/-- The last element of a list is a member. -/
theorem mem_of_getLast?_eq : ∀ {l : List Char} {x : Char},
    l.getLast? = some x → x ∈ l := by
  intro l
  induction l with
  | nil => intro x h; cases h
  | cons c l ih =>
    intro x h
    cases l with
    | nil =>
      simp [List.getLast?] at h
      subst h
      exact List.mem_cons_self _ _
    | cons d l2 =>
      rw [List.getLast?_cons_cons] at h
      exact List.mem_cons_of_mem _ (ih h)

/-- A scan of the trailing-comma rule preserves the property of beginning
with a newline (or being empty): the rule's emitted capture starts with the
whitespace the pattern consumed, which here begins with the newline. -/
theorem subFuel_head : ∀ (f : Nat) (u : List Char),
    (u = [] ∨ ∃ t, u = '\n' :: t) →
    (subFuel fseRule2.1 fseRule2.2 f u = [] ∨
     ∃ o, subFuel fseRule2.1 fseRule2.2 f u = '\n' :: o) := by
  intro f
  induction f with
  | zero =>
    intro u h
    exact h
  | succ f ih =>
    intro u h
    rcases h with rfl | ⟨t, rfl⟩
    · left
      simp [subFuel, fse2_empty_no_match]
    · cases hm : firstMatch fseRule2.1 ('\n' :: t) with
      | none =>
        right
        exact ⟨subFuel fseRule2.1 fseRule2.2 f t, by simp [subFuel, hm]⟩
      | some v =>
        obtain ⟨caps, rest⟩ := v
        have hrm := firstMatch_sound hm
        obtain ⟨W, i0, I, Pw, v0, V, Ws, hs, hW, hi0, hI, hPw, hv0, hV, hWs,
          hcaps, hrest⟩ := rm_fse2_decomp hrm
        cases W with
        | nil =>
          exfalso
          have hi : i0 = '\n' := by
            rw [List.nil_append] at hs
            exact (List.cons.injEq _ _ _ _ ▸ hs : _ ∧ _).1.symm
          rw [hi] at hi0
          exact absurd hi0 (by decide)
        | cons w0 W2 =>
          have hw0 : w0 = '\n' := by
            rw [List.cons_append] at hs
            injection hs with h1 _
            exact h1.symm
          have hlen : rest.length < ('\n' :: t).length := by
            have h5 := congrArg List.length hs
            simp [List.length_append] at h5 ⊢
            omega
          have hL : ¬ (('\n' :: t).length - rest.length = 0) := by omega
          have hcaps2 : caps = [(w0 :: W2) ++ i0 :: (I ++ ':' :: (Pw ++ v0 :: V))] := by
            simpa using hcaps
          right
          refine ⟨(W2 ++ i0 :: (I ++ ':' :: (Pw ++ v0 :: V))) ++
            subFuel fseRule2.1 fseRule2.2 f rest, ?_⟩
          simp only [subFuel, hm]
          rw [if_neg hL, hcaps2, fse2_template, hw0]
          simp

/-- Main invariant of the trailing-comma scan: the output of one full re.sub
pass of fix_syntax_errors rule 2 contains no line of the form
`identifier: value,` with comma-free value; moreover any such line formed by
prepending characters to the output's first line forces a match on the
correspondingly extended input (which is how the first-line case propagates
through the scan). -/
theorem fse2_scan_clean : ∀ (f : Nat) (s : List Char), s.length ≤ f →
    (∀ l ∈ lines (subFuel fseRule2.1 fseRule2.2 f s), ¬ BadLine l) ∧
    (∀ p : List Char,
      BadLine (p ++ firstLine (subFuel fseRule2.1 fseRule2.2 f s)) →
      (firstMatch fseRule2.1 (p ++ s)).isSome = true) := by
  intro f
  induction f with
  | zero =>
    intro s hlen
    have hs : s = [] := List.length_eq_zero.mp (Nat.le_zero.mp hlen)
    subst hs
    constructor
    · intro l hl
      simp [lines, subFuel] at hl
      subst hl
      intro hb
      have := badLine_mem_comma hb
      simp at this
    · intro p hb
      have hb2 : BadLine p := by
        simpa [subFuel, firstLine, List.takeWhile] using hb
      simpa using badLine_match hb2 (Or.inl rfl)
  | succ f ih =>
    intro s hlen
    cases hm : firstMatch fseRule2.1 s with
    | none =>
      cases s with
      | nil =>
        have hout : subFuel fseRule2.1 fseRule2.2 (f + 1) [] = [] := by
          simp [subFuel, hm]
        constructor
        · intro l hl
          rw [hout] at hl
          simp [lines] at hl
          subst hl
          intro hb
          have := badLine_mem_comma hb
          simp at this
        · intro p hb
          rw [hout] at hb
          have hb2 : BadLine p := by
            simpa [firstLine, List.takeWhile] using hb
          simpa using badLine_match hb2 (Or.inl rfl)
      | cons c s2 =>
        have hout : subFuel fseRule2.1 fseRule2.2 (f + 1) (c :: s2) =
            c :: subFuel fseRule2.1 fseRule2.2 f s2 := by
          simp [subFuel, hm]
        have hlen2 : s2.length ≤ f := by
          simpa using hlen
        obtain ⟨ihG, ihT⟩ := ih s2 hlen2
        by_cases hc : c = '\n'
        · subst hc
          constructor
          · intro l hl
            rw [hout] at hl
            have hll : lines ('\n' :: subFuel fseRule2.1 fseRule2.2 f s2) =
                [] :: lines (subFuel fseRule2.1 fseRule2.2 f s2) := by
              simp [lines]
            rw [hll] at hl
            rcases List.mem_cons.mp hl with rfl | hl2
            · intro hb
              have := badLine_mem_comma hb
              simp at this
            · exact ihG l hl2
          · intro p hb
            rw [hout, firstLine_nl_cons, List.append_nil] at hb
            exact badLine_match hb (Or.inr ⟨s2, rfl⟩)
        · constructor
          · intro l hl
            rw [hout] at hl
            obtain ⟨LS, hLS⟩ :=
              lines_eq_firstLine_cons (subFuel fseRule2.1 fseRule2.2 f s2)
            rw [lines_cons_of_ne hc _ _ _ hLS] at hl
            rcases List.mem_cons.mp hl with rfl | hl2
            · intro hb
              have hb2 : BadLine
                  ([c] ++ firstLine (subFuel fseRule2.1 fseRule2.2 f s2)) := by
                simpa using hb
              have hsome := ihT [c] hb2
              have he : [c] ++ s2 = c :: s2 := rfl
              rw [he, hm] at hsome
              simp at hsome
            · apply ihG
              rw [hLS]
              exact List.mem_cons_of_mem _ hl2
          · intro p hb
            rw [hout, firstLine_cons hc] at hb
            have hb2 : BadLine ((p ++ [c]) ++
                firstLine (subFuel fseRule2.1 fseRule2.2 f s2)) := by
              simpa [List.append_assoc] using hb
            have hsome := ihT (p ++ [c]) hb2
            have he : (p ++ [c]) ++ s2 = p ++ c :: s2 := by simp
            rwa [he] at hsome
    | some v =>
      obtain ⟨caps, rest⟩ := v
      have hrm := firstMatch_sound hm
      obtain ⟨W, i0, I, Pw, v0, V, Ws, hs, hW, hi0, hI, hPw, hv0, hV, hWs,
        hcaps, hrest⟩ := rm_fse2_decomp hrm
      have hcaps2 : caps = [W ++ i0 :: (I ++ ':' :: (Pw ++ v0 :: V))] := by
        simpa using hcaps
      have hsplit : s = (W ++ i0 :: (I ++ ':' :: (Pw ++ v0 :: V))) ++
          (',' :: (Ws ++ rest)) := by
        rw [hs]
        simp
      have hslen : rest.length < s.length := by
        have h5 := congrArg List.length hsplit
        simp [List.length_append] at h5 ⊢
        omega
      have hL : ¬ (s.length - rest.length = 0) := by omega
      have hout : subFuel fseRule2.1 fseRule2.2 (f + 1) s =
          (W ++ i0 :: (I ++ ':' :: (Pw ++ v0 :: V))) ++
          subFuel fseRule2.1 fseRule2.2 f rest := by
        simp only [subFuel, hm]
        rw [if_neg hL, hcaps2, fse2_template]
      have hlen2 : rest.length ≤ f := by omega
      obtain ⟨ihG, ihT⟩ := ih rest hlen2
      have hgnc : ¬ ',' ∈ (W ++ i0 :: (I ++ ':' :: (Pw ++ v0 :: V))) :=
        capture_no_comma hW hi0 hI hPw hv0 hV
      have hheadshape := subFuel_head f rest hrest
      constructor
      · intro l hl
        rw [hout] at hl
        rcases hheadshape with h0 | ⟨o, ho⟩
        · rw [h0, List.append_nil] at hl
          intro hb
          exact hgnc (mem_of_mem_lines _ l hl ',' (badLine_mem_comma hb))
        · rw [ho, lines_append_nl] at hl
          rcases List.mem_append.mp hl with hl1 | hl2
          · intro hb
            exact hgnc (mem_of_mem_lines _ l hl1 ',' (badLine_mem_comma hb))
          · apply ihG
            have hlo : lines (subFuel fseRule2.1 fseRule2.2 f rest) =
                [] :: lines o := by
              rw [ho]
              simp [lines]
            rw [hlo]
            exact List.mem_cons_of_mem _ hl2
      · intro p hb
        rw [hout] at hb
        have hfl : firstLine ((W ++ i0 :: (I ++ ':' :: (Pw ++ v0 :: V))) ++
            subFuel fseRule2.1 fseRule2.2 f rest) =
            firstLine (W ++ i0 :: (I ++ ':' :: (Pw ++ v0 :: V))) := by
          rcases hheadshape with h0 | ⟨o, ho⟩
          · rw [h0, List.append_nil]
          · rw [ho, firstLine_append_nl]
        rw [hfl] at hb
        by_cases hfg : firstLine (W ++ i0 :: (I ++ ':' :: (Pw ++ v0 :: V))) = []
        · rw [hfg, List.append_nil] at hb
          cases W with
          | nil =>
            exfalso
            by_cases hi : i0 = '\n'
            · rw [hi] at hi0
              exact absurd hi0 (by decide)
            · rw [List.nil_append, firstLine_cons hi] at hfg
              cases hfg
          | cons w0 W2 =>
            by_cases hw : w0 = '\n'
            · subst hw
              have hsst : s = '\n' :: (W2 ++ i0 ::
                  (I ++ ':' :: (Pw ++ v0 :: (V ++ ',' :: (Ws ++ rest))))) := by
                rw [hs]
                simp
              exact badLine_match hb (Or.inr ⟨_, hsst⟩)
            · exfalso
              rw [List.cons_append, firstLine_cons hw] at hfg
              cases hfg
        · exfalso
          obtain ⟨pre, hpre⟩ := badLine_split hb
          have h1 : (p ++ firstLine (W ++ i0 ::
              (I ++ ':' :: (Pw ++ v0 :: V)))).getLast? = some ',' := by
            rw [hpre]
            simp
          have h2 := getLast?_append_right p _ hfg
          rw [h1] at h2
          have h3 := mem_of_getLast?_eq h2.symm
          exact hgnc ((List.takeWhile_prefix notNl).subset h3)

/-- C10: the trailing-comma rule of fix_syntax_errors
(`([\s\t]*[a-zA-Z_][a-zA-Z0-9_]*:\s*[^,\n]+),\s*$` with a MULTILINE
end-of-line anchor) removes the trailing comma from every line of the form
`identifier: value,` whose value contains no comma — including a comma that
legitimately separates the property from a sibling property on the next line,
as the concrete run shows — so for every input, no such property line in the
rule's output still ends with a comma. -/
theorem c10_trailing_comma_rule :
    (∀ (s : String), ∀ l ∈ lines (reSub fseRule2 s).data, ¬ BadLine l) ∧
    fixSyntaxErrors "gte: startDate,\n  lte: endDate" =
      "gte: startDate\n  lte: endDate" := by
  constructor
  · intro s l hl
    exact (fse2_scan_clean (s.data.length + 1) s.data (Nat.le_succ _)).1 l hl
  · decide

/-- C10 witness at a concrete buffer and output line. -/
theorem c10_trailing_comma_rule_witness :
    ['x'] ∈ lines (reSub fseRule2 "x").data ∧ ¬ BadLine ['x'] :=
  ⟨by decide, c10_trailing_comma_rule.1 "x" ['x'] (by decide)⟩
